import Mathlib

/-!
Verification of the typst-build packaging tool (src/src/main.rs).

The development shallowly embeds the pure cores of the program:
  * the exclusion matcher of `copy_files` (globset glob matching with
    default settings plus the literal directory-pattern rules),
  * the import rewriter of `copy_files` (the regex
    `#import\s+"((?:\.\./)+ENTRY)((?::\s*[^"]*)?)"` together with
    `Regex::replace_all` semantics),
  * the `typst.toml` schema-line stripping,
  * `validate_package_name` and the orchestration of `main`
    (`compile_template`, `generate_thumbnail`, `copy_files`).

Paths are modelled on a Unix platform: `std::path::MAIN_SEPARATOR` is `/`,
so `p.replace('/', MAIN_SEPARATOR)` and `rel_str.replace(MAIN_SEPARATOR, "/")`
are both the identity and are dropped from the embedding.
All string processing is done on `List Char`, matching Rust `&str`
character-wise; `String` wrappers pack the results back up.
-/

namespace TypstBuild

/-- The Unicode White_Space code points.  Rust `char::is_whitespace`
(used by `str::trim_start`) and the Rust regex class `\s`
(with default Unicode mode) both denote exactly this set. -/
def wsChars : List Char :=
  [' ', '\t', '\n', '\u000B', '\u000C', '\r', '\u0085', '\u00A0', '\u1680',
   '\u2000', '\u2001', '\u2002', '\u2003', '\u2004', '\u2005', '\u2006',
   '\u2007', '\u2008', '\u2009', '\u200A', '\u2028', '\u2029', '\u202F',
   '\u205F', '\u3000']

/-- Whether a character is Unicode whitespace. -/
def isUniWs (c : Char) : Bool := wsChars.contains c

/-- Strip an expected literal sequence from the front of a list:
`some rest` when `s = p ++ rest`, `none` otherwise. -/
def stripPrefixList : List Char → List Char → Option (List Char)
  | [], s => some s
  | _ :: _, [] => none
  | p :: ps, c :: cs => if p == c then stripPrefixList ps cs else none

/-! ## The import rewriter

`copy_files` rewrites `.typ` files with
`Regex::new(&format!(...))` building the pattern
`#import\s+"((?:\.\./)+E)((?::\s*[^"]*)?)"` for the regex-escaped
entrypoint file name `E`, and `re.replace_all(&content, ...)` replacing
every match with `#import "@preview/NAME:VERSION" ++ specifier`
(the specifier is capture group 2, kept verbatim).

The Rust regex crate uses leftmost-first match semantics with greedy
quantifiers; `replace_all` replaces successive non-overlapping matches,
resuming the scan right after each match.  The embedding below
implements exactly that search for this fixed pattern shape.
-/

/-- The literal token `#import` of the pattern. -/
def impTok : List Char := ['#', 'i', 'm', 'p', 'o', 'r', 't']

/-- Candidate remainders after matching `(?:\.\./)+E` at the front of the
input, in greedy preference order (more `../` repetitions first).  Each
returned list is the input with one match of the group consumed. -/
def ascEntryCands (entry : List Char) : List Char → List (List Char)
  | '.' :: '.' :: '/' :: rest =>
      ascEntryCands entry rest ++
        (match stripPrefixList entry rest with
         | some r => [r]
         | none => [])
  | _ => []

/-- Match the tail `((?::\s*[^"]*)?)"` of the pattern: the optional
specifier group (greedy, so the `:`-branch is preferred) followed by the
closing quote.  Returns the captured specifier and the remainder after
the closing quote.  Inside the `:`-branch, `\s*[^"]*` greedily consumes
everything up to the first `"` (whitespace is not `"`, so maximal-munch
agrees with backtracking). -/
def specClose : List Char → Option (List Char × List Char)
  | ':' :: r =>
      let body := r.takeWhile (fun c => c != '"')
      (match r.dropWhile (fun c => c != '"') with
       | '"' :: rest => some (':' :: body, rest)
       | _ => none)
  | '"' :: rest => some ([], rest)
  | _ => none

/-- First success of `f` over a list of candidates, in order. -/
def firstSome : List α → (α → Option β) → Option β
  | [], _ => none
  | a :: as, f =>
      match f a with
      | some b => some b
      | none => firstSome as f

/-- Try to match the whole regex at the very front of `s`.  On success
returns the captured specifier (group 2) and the remainder of the input
after the match.  `\s+` is matched by maximal munch: every shorter
whitespace run ends at a whitespace character, which is not the required
`"`, so backtracking agrees. -/
def tryMatchAt (entry : List Char) (s : List Char) : Option (List Char × List Char) :=
  match stripPrefixList impTok s with
  | none => none
  | some s1 =>
      if (s1.takeWhile isUniWs).isEmpty then none
      else
        match s1.dropWhile isUniWs with
        | '"' :: s2 => firstSome (ascEntryCands entry s2) specClose
        | _ => none

/-- The replacement text produced for one match:
`format!("#import \"{}{}\"", package_import, specifier)` with
`package_import = format!("@preview/{}:{}", name, version)`. -/
def replacementText (n v sp : List Char) : List Char :=
  ("#import \"@preview/").data ++ n ++ ':' :: (v ++ sp ++ ['"'])

/-- Fuelled scan implementing `replace_all`: at each position try the
pattern; on a match emit the replacement and resume after the match,
otherwise copy one character.  A match always consumes at least one
character, so fuel `s.length` suffices (see `replaceAllAux_fuel`). -/
def replaceAllAux (n v entry : List Char) : Nat → List Char → List Char
  | _, [] => []
  | 0, s => s
  | fuel + 1, c :: cs =>
      match tryMatchAt entry (c :: cs) with
      | some (sp, rest) => replacementText n v sp ++ replaceAllAux n v entry fuel rest
      | none => c :: replaceAllAux n v entry fuel cs

/-- `re.replace_all(&content, ..)` for the import-rewriting regex. -/
def replaceAllL (n v entry s : List Char) : List Char :=
  replaceAllAux n v entry s.length s

/-- Whether the regex matches anywhere in `s` (at any start position). -/
def hasMatchB (entry : List Char) : List Char → Bool
  | [] => false
  | c :: cs => (tryMatchAt entry (c :: cs)).isSome || hasMatchB entry cs

/-- String-level import rewriter, as applied to a `.typ` file by
`copy_files` (given the entrypoint file name already extracted). -/
def rewriteTyp (name version entryName content : String) : String :=
  ⟨replaceAllL name.data version.data entryName.data content.data⟩

/-! ## Manifest schema-line stripping -/

/-- `str::split_inclusive('\n')`: chunks that each end with `'\n'`,
except possibly the last; the empty string yields no chunks. -/
def splitInclNL : List Char → List (List Char)
  | [] => []
  | c :: cs =>
      if c == '\n' then [c] :: splitInclNL cs
      else
        match splitInclNL cs with
        | [] => [[c]]
        | l :: ls => (c :: l) :: ls

/-- The per-chunk map of Rust `str::lines`: strip one trailing `'\n'`,
and then one trailing `'\r'` (only when the `'\n'` was present). -/
def stripLineEnd (l : List Char) : List Char :=
  match l.reverse with
  | '\n' :: r =>
      (match r with
       | '\r' :: r2 => r2.reverse
       | _ => r.reverse)
  | _ => l

/-- Rust `str::lines`. -/
def rustLines (s : List Char) : List (List Char) :=
  (splitInclNL s).map stripLineEnd

/-- Whether `line.trim_start().starts_with("#:schema")`. -/
def isSchemaLine (l : List Char) : Bool :=
  ("#:schema").data.isPrefixOf (l.dropWhile isUniWs)

/-- `Vec::join("\n")`. -/
def joinNL : List (List Char) → List Char
  | [] => []
  | [l] => l
  | l :: ls => l ++ '\n' :: joinNL ls

/-- The `typst.toml` transform of `copy_files`: drop every line whose
trimmed form starts with `#:schema`, join the rest with `'\n'`. -/
def stripSchema (content : String) : String :=
  ⟨joinNL ((rustLines content.data).filter (fun l => !isSchemaLine l))⟩

/-! ## The exclusion matcher

`copy_files` feeds every exclusion pattern into a `globset::GlobSetBuilder`
via `Glob::new` (default settings) and, separately, precomputes
`directory_patterns` from the patterns without glob metacharacters that
either end in a separator or name an existing directory.

`Glob::new` defaults on Unix: case sensitive, `literal_separator` is
DISABLED (so `*`, `?` and `[...]` may match `/`), backslash escapes
enabled, `{a,b}` alternation supported.  The embedding covers that
grammar except for the recursive wildcard `**` (patterns containing two
adjacent `*` are rejected by the parser here; no claim involves them). -/

/-- One token of a compiled glob pattern. -/
inductive GlobToken where
  | lit (c : Char)
  | one
  | many
  | cls (neg : Bool) (rs : List (Char × Char))
deriving DecidableEq, Repr

/-- Character-class membership (with negation). -/
def inCls (neg : Bool) (rs : List (Char × Char)) (c : Char) : Bool :=
  let hit := rs.any (fun r => r.1 ≤ c && c ≤ r.2)
  if neg then !hit else hit

/-- Fuelled glob matcher against a whole path (globs are anchored at both
ends).  With `literal_separator` disabled, `one`, `many` and classes may
match `/`.  Every recursive call shrinks `ts.length + s.length`, so fuel
`ts.length + s.length + 1` suffices. -/
def globMatchAux : Nat → List GlobToken → List Char → Bool
  | 0, _, _ => false
  | _ + 1, [], s => s.isEmpty
  | _ + 1, .lit _ :: _, [] => false
  | f + 1, .lit c :: ts, d :: ds => c == d && globMatchAux f ts ds
  | _ + 1, .one :: _, [] => false
  | f + 1, .one :: ts, _ :: ds => globMatchAux f ts ds
  | _ + 1, .cls _ _ :: _, [] => false
  | f + 1, .cls n rs :: ts, d :: ds => inCls n rs d && globMatchAux f ts ds
  | f + 1, .many :: ts, [] => globMatchAux f ts []
  | f + 1, .many :: ts, d :: ds =>
      globMatchAux f ts (d :: ds) || globMatchAux f (.many :: ts) ds

/-- Whether a compiled glob matches the whole character list. -/
def globMatch (ts : List GlobToken) (s : List Char) : Bool :=
  globMatchAux (ts.length + s.length + 1) ts s

/-- Parse the body of a `[...]` character class (after the optional `!`),
returning the ranges and the remainder after the closing `]`.
`a-b` is a range, `\c` is a literal entry, a lone `-` is literal.
An unclosed class is a pattern error. -/
def clsItems : List Char → Option (List (Char × Char) × List Char)
  | [] => none
  | ']' :: r => some ([], r)
  | '\\' :: c :: r =>
      (clsItems r).map (fun p => ((c, c) :: p.1, p.2))
  | a :: '-' :: ']' :: r => some ([(a, a), ('-', '-')], r)
  | a :: '-' :: b :: r => (clsItems r).map (fun p => ((a, b) :: p.1, p.2))
  | a :: r => (clsItems r).map (fun p => ((a, a) :: p.1, p.2))

/-- Fuelled brace-free glob parser.  Special characters: `\` escapes,
`*` is `many` (a second adjacent `*`, i.e. a recursive wildcard, is not
modelled and is rejected), `?` is `one`, `[` opens a class with optional
`!` negation.  Everything else is literal. -/
def parseSimpleAux : Nat → List Char → Option (List GlobToken)
  | 0, _ => none
  | _ + 1, [] => some []
  | _ + 1, ['\\'] => none
  | f + 1, '\\' :: c :: r => (parseSimpleAux f r).map (.lit c :: ·)
  | _ + 1, '*' :: '*' :: _ => none
  | f + 1, '*' :: r => (parseSimpleAux f r).map (.many :: ·)
  | f + 1, '?' :: r => (parseSimpleAux f r).map (.one :: ·)
  | f + 1, '[' :: '!' :: r =>
      match clsItems r with
      | some (rs, r2) => (parseSimpleAux f r2).map (.cls true rs :: ·)
      | none => none
  | f + 1, '[' :: r =>
      match clsItems r with
      | some (rs, r2) => (parseSimpleAux f r2).map (.cls false rs :: ·)
      | none => none
  | f + 1, c :: r => (parseSimpleAux f r).map (.lit c :: ·)

/-- Parse a glob with no brace alternation in it. -/
def parseSimple (s : List Char) : Option (List GlobToken) :=
  parseSimpleAux (s.length + 1) s

/-- Scan for the body of a `{...}` group: characters up to the matching
`}` (no nesting allowed), plus the remainder.  `\` escapes. -/
def spanBody : List Char → Option (List Char × List Char)
  | [] => none
  | '}' :: r => some ([], r)
  | '{' :: _ => none
  | ['\\'] => none
  | '\\' :: c :: r => (spanBody r).map (fun p => ('\\' :: c :: p.1, p.2))
  | c :: r => (spanBody r).map (fun p => (c :: p.1, p.2))

/-- Split a brace-group body at top-level commas (`\` escapes). -/
def splitCommas : List Char → List (List Char)
  | [] => [[]]
  | ',' :: r => [] :: splitCommas r
  | '\\' :: c :: r =>
      (match splitCommas r with
       | [] => [['\\', c]]
       | b :: bs => ('\\' :: c :: b) :: bs)
  | c :: r =>
      (match splitCommas r with
       | [] => [[c]]
       | b :: bs => (c :: b) :: bs)

/-- Find the first unescaped `{`, returning `some none` when there is no
brace group, and `some (some (pre, body, suf))` for the decomposition
`pre ++ "\x7b" ++ body ++ "\x7d" ++ suf` otherwise. -/
def splitFirstBrace : List Char → Option (Option (List Char × List Char × List Char))
  | [] => some none
  | ['\\'] => none
  | '\\' :: c :: r =>
      (splitFirstBrace r).map (Option.map (fun t => ('\\' :: c :: t.1, t.2.1, t.2.2)))
  | '{' :: r => (spanBody r).map (fun p => some ([], p.1, p.2))
  | c :: r =>
      (splitFirstBrace r).map (Option.map (fun t => (c :: t.1, t.2.1, t.2.2)))

/-- Fuelled expansion of `{a,b}` alternation groups into the list of
alternative brace-free patterns (the alternation of their matchers is
the glob's matcher).  Fuel `s.length + 1` suffices: each step recurses
on a strict suffix. -/
def expandBracesAux : Nat → List Char → Option (List (List Char))
  | 0, _ => none
  | f + 1, s =>
      match splitFirstBrace s with
      | none => none
      | some none => some [s]
      | some (some (pre, body, suf)) =>
          match expandBracesAux f suf with
          | none => none
          | some sufs =>
              some ((splitCommas body).flatMap (fun b => sufs.map (fun t => pre ++ b ++ t)))

/-- Compile one glob pattern (`globset::Glob::new` with default
settings) to the list of its brace-free alternatives' token lists. -/
def parseGlobFull (s : List Char) : Option (List (List GlobToken)) :=
  match expandBracesAux (s.length + 1) s with
  | none => none
  | some alts => alts.mapM parseSimple

/-- Whether a compiled glob (with alternatives) matches a path. -/
def globIsMatch (g : List (List GlobToken)) (path : List Char) : Bool :=
  g.any (fun ts => globMatch ts path)

/-- `has_glob_metacharacters` from the source. -/
def hasGlobMeta (s : String) : Bool :=
  s.data.any (fun c => c == '*' || c == '?' || c == '[' || c == ']')

/-- `p.ends_with('/')` on the pattern (Unix separator). -/
def endsWithSlash (s : String) : Bool := s.data.getLast? == some '/'

/-- `trim_end_matches(MAIN_SEPARATOR)`: drop every trailing `/`. -/
def dropTrailingSlashes (s : String) : String :=
  ⟨(s.data.reverse.dropWhile (fun c => c == '/')).reverse⟩

/-- Rust `str::starts_with` on strings. -/
def startsWithStr (p s : String) : Bool := p.data.isPrefixOf s.data

/-- The precomputed `directory_patterns` of `copy_files`.  `isDir p`
models `source_dir.join(p).is_dir()` (a read-only snapshot of the source
tree, keyed by the pattern relative to the package root). -/
def directoryPatterns (pats : List String) (isDir : String → Bool) : List String :=
  (pats.filter (fun p => !hasGlobMeta p)).filterMap (fun p =>
    if endsWithSlash p || isDir p then some (dropTrailingSlashes p) else none)

/-- The exclusion decision of the `copy_files` walk for one relative
path: `none` when some pattern fails to compile (`Glob::new` errors and
`copy_files` aborts before walking), otherwise `some true` iff the glob
set matches the path or some directory pattern equals it or is one of
its ancestors. -/
def isExcluded? (pats : List String) (isDir : String → Bool) (rel : String) : Option Bool :=
  match pats.mapM (fun p => parseGlobFull p.data) with
  | none => none
  | some gs =>
      some (gs.any (fun g => globIsMatch g rel.data) ||
            (directoryPatterns pats isDir).any
              (fun d => rel == d || startsWithStr (d ++ "/") rel))

/-- The entries skipped by a walk visiting `entries` in order: exactly
the entries whose exclusion decision is positive. -/
def walkExcluded (pats : List String) (isDir : String → Bool)
    (entries : List String) : List String :=
  entries.filter (fun e => isExcluded? pats isDir e == some true)

/-! ## Per-file content transform of the tree walk -/

/-- Rust `Path::extension` applied to a file name: the portion after the
last `.`, unless there is no `.` or the only `.` is the leading
character. -/
def rustExtension (f : List Char) : Option (List Char) :=
  match f.reverse.dropWhile (fun c => c != '.') with
  | [] => none
  | [_] => none
  | _ :: _ :: _ => some ((f.reverse.takeWhile (fun c => c != '.')).reverse)

/-- What `copy_files` writes for one included file, given the package
name, version and entrypoint file name, the file's relative path as a
component list, and its content.  `src_path.ends_with("typst.toml")`
compares the last path component; `.typ` files go through the import
rewriter; everything else is copied verbatim. -/
def transformContent (name version entryName : String) (comps : List String)
    (content : String) : String :=
  if comps.getLast? = some "typst.toml" then stripSchema content
  else
    match comps.getLast? with
    | none => content
    | some f =>
        match rustExtension f.data with
        | some ext => if ext = "typ".data then rewriteTyp name version entryName content else content
        | none => content

/-! ## Name validation and build orchestration -/

/-- The error taxonomy of the spec: configuration errors and compiler
(build) errors.  `anyhow::Error` values are modelled by their message. -/
inductive AppError where
  | configError (msg : String)
  | buildError (msg : String)
deriving DecidableEq, Repr

/-- Captured outcome of one compiler subprocess invocation. -/
structure ProcOutput where
  success : Bool
  out : String
  err : String
deriving DecidableEq, Repr

/-- `validate_package_name`: `dirName` models
`toml_dir.file_name().and_then(|n| n.to_str())`. -/
def validatePackageName (packageName : String) (dirName : Option String) :
    Except AppError Unit :=
  match dirName with
  | none => .error (.configError "Could not determine parent directory name")
  | some d =>
      if packageName ≠ d then
        .error (.configError ("Package name '" ++ packageName ++
          "' does not match parent directory name '" ++ d ++ "'"))
      else .ok ()

/-- The manifest's `template` table. -/
structure TemplateConfig where
  path : Option String
  entrypoint : Option String
  thumbnail : Option String
deriving DecidableEq, Repr

/-- The manifest's `package` table. -/
structure PackageConfig where
  name : String
  version : String
  exclude : Option (List String)
  entrypoint : Option String
deriving DecidableEq, Repr

/-- The parsed manifest. -/
structure Config where
  package : PackageConfig
  template : Option TemplateConfig
deriving DecidableEq, Repr

/-- Externally visible steps of a run, in order: the template
compilation, the thumbnail generation, and the tree copy. -/
inductive Action where
  | compileTemplate (pkg path entry : String)
  | thumb (pkg path entry thumbPath : String)
  | copy
deriving DecidableEq, Repr

/-- `compile_template`: a non-zero exit is an error embedding the
captured streams. -/
def compileTemplateStep (_pkg _path _entry : String) (o : ProcOutput) :
    Except AppError Unit :=
  if o.success then .ok ()
  else .error (.buildError ("Template compilation failed\nStdout: " ++ o.out ++
    "\nStderr: " ++ o.err))

/-- `generate_thumbnail`: same fatality rule, its own message. -/
def thumbStep (_pkg _path _entry _thumbPath : String) (o : ProcOutput) :
    Except AppError Unit :=
  if o.success then .ok ()
  else .error (.buildError ("Thumbnail generation failed\nStdout: " ++ o.out ++
    "\nStderr: " ++ o.err))

/-- The template-processing block of `main`: which compiler invocations
are attempted (in order) and the overall outcome.  `cout` and `tout` are the
outcomes the external compiler would produce for the template build and
the thumbnail build. -/
def processTemplate (cfg : Config) (cout tout : ProcOutput) :
    List Action × Except AppError Unit :=
  match cfg.template with
  | none => ([], .ok ())
  | some t =>
      match t.path, t.entrypoint with
      | some p, some e =>
          let a1 := Action.compileTemplate cfg.package.name p e
          (match compileTemplateStep cfg.package.name p e cout with
           | .error err => ([a1], .error err)
           | .ok _ =>
               match t.thumbnail with
               | none => ([a1], .ok ())
               | some th =>
                   let a2 := Action.thumb cfg.package.name p e th
                   (match thumbStep cfg.package.name p e th tout with
                    | .error err => ([a1, a2], .error err)
                    | .ok _ => ([a1, a2], .ok ())))
      | _, _ => ([], .ok ())

/-- The run after the manifest has been parsed: validate the name, run
the template block, then copy the tree.  Any error aborts the sequence. -/
def runMain (cfg : Config) (dirName : Option String) (cout tout : ProcOutput) :
    List Action × Except AppError Unit :=
  match validatePackageName cfg.package.name dirName with
  | .error e => ([], .error e)
  | .ok _ =>
      match processTemplate cfg cout tout with
      | (acts, .error e) => (acts, .error e)
      | (acts, .ok _) => (acts ++ [Action.copy], .ok ())

/-! ## Auxiliary notions used by the statements -/

/-- The text of `k` ascending segments `../`. -/
def upsList : Nat → List Char
  | 0 => []
  | k + 1 => '.' :: '.' :: '/' :: upsList k

/-- Whether the list contains a quote character immediately followed by
a dot.  Every match of the import regex contains the fragment `"..`, so
content without this shape is left untouched by the rewriter. -/
def adjQD : List Char → Bool
  | a :: b :: r => (a == '"' && b == '.') || adjQD (b :: r)
  | _ => false

/-- Characters that neither `has_glob_metacharacters` nor globset treat
specially: not one of the code's metacharacters `* ? [ ]`, not a brace
and not a backslash. -/
def plainGlobChar (c : Char) : Bool :=
  !(c == '*' || c == '?' || c == '[' || c == ']' ||
    c == '\x7b' || c == '\x7d' || c == '\\')

/-- The side conditions on the entrypoint file name guaranteed by
`Path::file_name`: nonempty, not `.` or `..`, and free of separators. -/
def goodEntry (e : List Char) : Prop :=
  e ≠ [] ∧ e ≠ ['.'] ∧ e ≠ ['.', '.'] ∧ '/' ∉ e

/-! ## Generic list lemmas -/

lemma count_filter_eq {α} [BEq α] [LawfulBEq α] (p : α → Bool) (a : α) (l : List α) :
    (l.filter p).count a = if p a then l.count a else 0 := by
  induction l with
  | nil => simp
  | cons b bs ih =>
    by_cases hb : p b
    · rcases eq_or_ne b a with rfl | hne
      · simp [List.filter_cons, hb, List.count_cons, ih]
      · simp [List.filter_cons, hb, List.count_cons, ih, hne]
    · rcases eq_or_ne b a with rfl | hne
      · simp [List.filter_cons, hb, List.count_cons, ih]
      · simp [List.filter_cons, hb, List.count_cons, ih, hne]

/-! ## C4: manifest schema stripping -/

/-- C4: the schema-stripping transform keeps exactly the lines whose
trimmed form does not begin with `#:schema` — a sublist of the original
lines (so the surviving lines, blank lines included, appear in their
original order), with each non-schema line surviving with its original
multiplicity and each schema line dropped — and joins the survivors with
newlines; illustrated on a manifest with an indented `#:schema` line. -/
theorem c4_schema_strip :
    (∀ content : List Char,
        (stripSchema ⟨content⟩).data =
          joinNL ((rustLines content).filter (fun l => !isSchemaLine l))
      ∧ ((rustLines content).filter (fun l => !isSchemaLine l)).Sublist (rustLines content)
      ∧ (∀ l : List Char,
          ((rustLines content).filter (fun l2 => !isSchemaLine l2)).count l =
            if isSchemaLine l then 0 else (rustLines content).count l))
    ∧ stripSchema "a\n  #:schema https://example/schema.json\n\nb" = "a\n\nb" := by
  refine ⟨fun content => ⟨rfl, List.filter_sublist _, fun l => ?_⟩, by decide⟩
  rw [count_filter_eq]
  by_cases h : isSchemaLine l <;> simp [h]

/-! ## C7: name validation -/

/-- C7: `validate_package_name` succeeds iff the declared name equals
the manifest directory's name; a mismatch yields the ConfigError naming
both, and a run whose validation fails performs no actions at all. -/
theorem c7_name_validation :
    (∀ n d : String, validatePackageName n (some d) = .ok () ↔ n = d)
    ∧ (∀ n d : String, n ≠ d →
        validatePackageName n (some d) =
          .error (.configError ("Package name '" ++ n ++
            "' does not match parent directory name '" ++ d ++ "'")))
    ∧ (∀ (cfg : Config) (dirName : Option String) (cout tout : ProcOutput) (e : AppError),
        validatePackageName cfg.package.name dirName = .error e →
        runMain cfg dirName cout tout = ([], .error e)) := by
  refine ⟨fun n d => ?_, fun n d h => ?_, fun cfg dn c t e h => ?_⟩
  · constructor
    · intro h
      by_contra hne
      simp [validatePackageName, hne] at h
    · intro h
      subst h
      simp [validatePackageName]
  · simp [validatePackageName, h]
  · simp [runMain, h]

/-- Witness for C7 at the spec's concrete example: name `cards` in a
directory named `cards` passes; in a directory named `card` it fails
with the ConfigError. -/
theorem c7_name_validation_witness :
    validatePackageName "cards" (some "cards") = .ok ()
    ∧ validatePackageName "cards" (some "card") =
        .error (.configError ("Package name '" ++ "cards" ++
          "' does not match parent directory name '" ++ "card" ++ "'")) :=
  ⟨(c7_name_validation.1 "cards" "cards").mpr rfl,
   c7_name_validation.2.1 "cards" "card" (by decide)⟩

/-! ## C8: build orchestration -/

/-- The tree copy never appears among the template-processing actions. -/
lemma copy_not_mem_processTemplate (cfg : Config) (cout tout : ProcOutput) :
    Action.copy ∉ (processTemplate cfg cout tout).1 := by
  unfold processTemplate
  cases hcf : cfg.template with
  | none => simp
  | some t =>
    cases hp : t.path with
    | none => simp [hp]
    | some p =>
      cases he : t.entrypoint with
      | none => simp [hp, he]
      | some e =>
        cases ht : t.thumbnail <;>
          cases hc : cout.success <;>
            cases hs : tout.success <;>
              simp [hp, he, ht, compileTemplateStep, thumbStep, hc, hs]

/-- C8: the thumbnail invocation is attempted only when a thumbnail path
is declared and the template build succeeded; a failing invocation of
either kind aborts the run with a BuildError embedding the captured
stdout and stderr of the subprocess, and the tree copy happens only on
an error-free run. -/
theorem c8_thumbnail_orchestration :
    (∀ (cfg : Config) (cout tout : ProcOutput) (pkg p e th : String),
        Action.thumb pkg p e th ∈ (processTemplate cfg cout tout).1 →
        (∃ t, cfg.template = some t ∧ t.thumbnail = some th) ∧ cout.success = true)
    ∧ (∀ (cfg : Config) (t : TemplateConfig) (p e : String) (cout tout : ProcOutput),
        cfg.template = some t → t.path = some p → t.entrypoint = some e →
        cout.success = false →
        processTemplate cfg cout tout =
          ([Action.compileTemplate cfg.package.name p e],
           .error (.buildError ("Template compilation failed\nStdout: " ++ cout.out ++
             "\nStderr: " ++ cout.err))))
    ∧ (∀ (cfg : Config) (t : TemplateConfig) (p e th : String) (cout tout : ProcOutput),
        cfg.template = some t → t.path = some p → t.entrypoint = some e →
        t.thumbnail = some th → cout.success = true → tout.success = false →
        processTemplate cfg cout tout =
          ([Action.compileTemplate cfg.package.name p e,
            Action.thumb cfg.package.name p e th],
           .error (.buildError ("Thumbnail generation failed\nStdout: " ++ tout.out ++
             "\nStderr: " ++ tout.err))))
    ∧ (∀ (cfg : Config) (dirName : Option String) (cout tout : ProcOutput),
        Action.copy ∈ (runMain cfg dirName cout tout).1 →
        (runMain cfg dirName cout tout).2 = .ok ()) := by
  refine ⟨?_, ?_, ?_, ?_⟩
  · intro cfg cout tout pkg p e th hmem
    unfold processTemplate at hmem
    cases hcf : cfg.template with
    | none => simp [hcf] at hmem
    | some t =>
      cases hp : t.path with
      | none => simp [hcf, hp] at hmem
      | some pp =>
        cases he : t.entrypoint with
        | none => simp [hcf, hp, he] at hmem
        | some ee =>
          cases hc : cout.success with
          | false => simp [hcf, hp, he, compileTemplateStep, hc] at hmem
          | true =>
            cases ht : t.thumbnail with
            | none => simp [hcf, hp, he, ht, compileTemplateStep, hc] at hmem
            | some tth =>
              cases hs : tout.success <;>
                · simp [hcf, hp, he, ht, compileTemplateStep, thumbStep, hc, hs] at hmem
                  exact ⟨⟨t, rfl, by rw [ht, hmem.2.2.2]⟩, rfl⟩
  · intro cfg t p e cout tout hcf hp he hc
    simp [processTemplate, hcf, hp, he, compileTemplateStep, hc]
  · intro cfg t p e th cout tout hcf hp he ht hc hs
    simp [processTemplate, hcf, hp, he, ht, compileTemplateStep, thumbStep, hc, hs]
  · intro cfg dn cout tout hmem
    unfold runMain at hmem ⊢
    cases hv : validatePackageName cfg.package.name dn with
    | error e => simp [hv] at hmem
    | ok u =>
      rcases hpt : processTemplate cfg cout tout with ⟨acts, r⟩
      cases r with
      | error e =>
        exfalso
        have := copy_not_mem_processTemplate cfg cout tout
        rw [hpt] at this
        simp [hv, hpt] at hmem
        exact this hmem
      | ok u2 => simp [hv, hpt]

/-- Witness for C8: with a declared template and thumbnail but a failing
template build, only the template compilation is attempted and the run
aborts with the BuildError embedding the captured streams. -/
theorem c8_thumbnail_orchestration_witness :
    processTemplate
        ⟨⟨"mypkg", "1.0.0", none, none⟩,
         some ⟨some "templates", some "intro.typ", some "thumb.png"⟩⟩
        ⟨false, "so", "se"⟩ ⟨true, "", ""⟩ =
      ([Action.compileTemplate "mypkg" "templates" "intro.typ"],
       .error (.buildError ("Template compilation failed\nStdout: " ++ "so" ++
         "\nStderr: " ++ "se"))) :=
  c8_thumbnail_orchestration.2.1
    ⟨⟨"mypkg", "1.0.0", none, none⟩,
     some ⟨some "templates", some "intro.typ", some "thumb.png"⟩⟩
    ⟨some "templates", some "intro.typ", some "thumb.png"⟩
    "templates" "intro.typ" ⟨false, "so", "se"⟩ ⟨true, "", ""⟩ rfl rfl rfl rfl

/-! ## C9: nested manifest files -/

/-- C9: every included file whose last path component is `typst.toml`,
at any depth of the tree, is written through the schema-stripping
transform, never copied verbatim. -/
theorem c9_nested_manifest :
    ∀ (name version entryName : String) (comps : List String) (content : String),
      comps.getLast? = some "typst.toml" →
      transformContent name version entryName comps content = stripSchema content := by
  intro n v e comps c h
  simp [transformContent, h]

/-- Witness for C9: a `typst.toml` nested one level deep goes through
the stripping transform. -/
theorem c9_nested_manifest_witness :
    transformContent "n" "v" "main.typ" ["sub", "typst.toml"] "x\n#:schema y\nz" =
      stripSchema "x\n#:schema y\nz" :=
  c9_nested_manifest "n" "v" "main.typ" ["sub", "typst.toml"] "x\n#:schema y\nz" rfl

/-! ## C6: purity of the exclusion decision -/

/-- C6: the exclusion decision is a pure function of the pattern set and
the relative path: it is deterministic, the set of skipped entries is
permutation-invariant under reordering of the walk, and membership in
the skipped set depends only on the entry's own decision. -/
theorem c6_pure_exclusion :
    ∀ (pats : List String) (isDir : String → Bool) (P : String)
      (l1 l2 : List String), l1.Perm l2 →
      (∀ b1 b2 : Option Bool, isExcluded? pats isDir P = b1 →
          isExcluded? pats isDir P = b2 → b1 = b2)
      ∧ (walkExcluded pats isDir l1).Perm (walkExcluded pats isDir l2)
      ∧ (P ∈ walkExcluded pats isDir l1 ↔
          P ∈ l1 ∧ isExcluded? pats isDir P = some true) := by
  intro pats isDir P l1 l2 hperm
  refine ⟨fun b1 b2 h1 h2 => h1.symm.trans h2, hperm.filter _, ?_⟩
  simp [walkExcluded, List.mem_filter]

/-- Witness for C6: reordering a two-entry walk permutes the skipped
set, and `notes.tmp` is skipped exactly because its own decision is
positive. -/
theorem c6_pure_exclusion_witness :
    (walkExcluded ["*.tmp"] (fun _ => false) ["notes.tmp", "main.typ"]).Perm
      (walkExcluded ["*.tmp"] (fun _ => false) ["main.typ", "notes.tmp"])
    ∧ ("notes.tmp" ∈ walkExcluded ["*.tmp"] (fun _ => false) ["notes.tmp", "main.typ"] ↔
        "notes.tmp" ∈ ["notes.tmp", "main.typ"] ∧
          isExcluded? ["*.tmp"] (fun _ => false) "notes.tmp" = some true) :=
  let h := c6_pure_exclusion ["*.tmp"] (fun _ => false) "notes.tmp"
    ["notes.tmp", "main.typ"] ["main.typ", "notes.tmp"]
    (List.Perm.swap "main.typ" "notes.tmp" [])
  ⟨h.2.1, h.2.2⟩

/-! ## Counterexamples for C1, C3 and C5 -/

/-- C1 counterexample: with the exclusion set containing exactly the
glob `*.png`, the nested path `sub/image.png` IS excluded — `Glob::new`
uses default `globset` settings, where `*` also matches `/`. -/
theorem c1_counterexample :
    isExcluded? ["*.png"] (fun _ => false) "sub/image.png" = some true := by
  decide

/-- C3 counterexample: rewriting this content twice differs from
rewriting it once.  The first pass consumes through the middle quote
(the specifier clause `[^"]*` absorbs `hash-import`), and its
replacement splices with the leftover text into a fresh match for the
second pass. -/
theorem c3_counterexample :
    rewriteTyp "mypkg" "1.0.0" "main.typ"
        (rewriteTyp "mypkg" "1.0.0" "main.typ"
          "#import \"../main.typ: #import \"../main.typ\"")
      ≠ rewriteTyp "mypkg" "1.0.0" "main.typ"
          "#import \"../main.typ: #import \"../main.typ\"" := by
  decide

/-- C5 counterexample: the pattern `\x7ba,b\x7d` contains none of the
code's glob metacharacters `* ? [ ]`, so it is classified as a literal
rule, and here it names an existing subdirectory; yet it excludes the
path `a`, which neither equals the pattern nor lies under it — globset
brace alternation makes the "literal" pattern match `a` as a glob. -/
theorem c5_counterexample :
    isExcluded? ["\x7ba,b\x7d"] (fun _ => true) "a" = some true
    ∧ hasGlobMeta "\x7ba,b\x7d" = false
    ∧ ¬("a" = "\x7ba,b\x7d" ∨ startsWithStr ("\x7ba,b\x7d" ++ "/") "a" = true) := by
  decide

/-! ## Lemmas about the import-rewriter matcher -/

lemma stripPrefixList_self_append (p r : List Char) :
    stripPrefixList p (p ++ r) = some r := by
  induction p with
  | nil => rfl
  | cons c cs ih => simp [stripPrefixList, ih]

lemma stripPrefixList_some : ∀ (p s r : List Char),
    stripPrefixList p s = some r → s = p ++ r := by
  intro p
  induction p with
  | nil =>
    intro s r h
    simp [stripPrefixList] at h
    simp [h]
  | cons c cs ih =>
    intro s r h
    cases s with
    | nil => simp [stripPrefixList] at h
    | cons d ds =>
      by_cases hcd : c == d
      · simp [stripPrefixList, hcd] at h
        have := ih ds r h
        simp [this, (beq_iff_eq.mp hcd)]
      · simp [stripPrefixList, hcd] at h

lemma takeWhile_split {α} (p : α → Bool) :
    ∀ (w : List α) (c : α) (r : List α), (∀ x ∈ w, p x = true) → p c = false →
      (w ++ c :: r).takeWhile p = w ∧ (w ++ c :: r).dropWhile p = c :: r := by
  intro w
  induction w with
  | nil =>
    intro c r _ hc
    simp [List.takeWhile, List.dropWhile, hc]
  | cons a as ih =>
    intro c r hall hc
    have ha := hall a (by simp)
    have has : ∀ x ∈ as, p x = true := fun x hx => hall x (by simp [hx])
    have := ih c r has hc
    simp [List.takeWhile, List.dropWhile, ha, this]

lemma length_dropWhile_le {α} (p : α → Bool) (l : List α) :
    (l.dropWhile p).length ≤ l.length := by
  induction l with
  | nil => simp
  | cons a as ih =>
    by_cases h : p a
    · simp [List.dropWhile, h]; omega
    · simp [List.dropWhile, h]

lemma ascEntryCands_eq_nil (e s : List Char)
    (h : ∀ t, s ≠ '.' :: '.' :: '/' :: t) : ascEntryCands e s = [] := by
  unfold ascEntryCands
  split
  · rename_i rest
    exact absurd rfl (h rest)
  · rfl

lemma goodEntry_no_asc {e : List Char} (he : goodEntry e) :
    ∀ (rest t : List Char), e ++ rest ≠ '.' :: '.' :: '/' :: t := by
  obtain ⟨h0, h1, h2, hs⟩ := he
  intro rest t heq
  match e, heq with
  | [], _ => exact h0 rfl
  | [c], heq =>
    simp at heq
    exact h1 (by simp [heq.1])
  | [c1, c2], heq =>
    simp at heq
    exact h2 (by simp [heq.1, heq.2.1])
  | c1 :: c2 :: c3 :: es, heq =>
    simp at heq
    exact hs (by simp [heq.1, heq.2.1, heq.2.2.1])

lemma goodEntry_strip_asc_none {e : List Char} (he : goodEntry e) :
    ∀ z, stripPrefixList e ('.' :: '.' :: '/' :: z) = none := by
  obtain ⟨h0, h1, h2, hs⟩ := he
  intro z
  match e with
  | [] => exact absurd rfl h0
  | [c] =>
    by_cases h : c = '.'
    · exact absurd (by simp [h]) h1
    · simp [stripPrefixList, h]
  | [c1, c2] =>
    by_cases ha : c1 = '.'
    · by_cases hb : c2 = '.'
      · exact absurd (by simp [ha, hb]) h2
      · simp [stripPrefixList, ha, hb]
    · simp [stripPrefixList, ha]
  | c1 :: c2 :: c3 :: es =>
    by_cases ha : c1 = '.'
    · by_cases hb : c2 = '.'
      · have hc : c3 ≠ '/' := fun h => hs (by simp [h])
        simp [stripPrefixList, ha, hb, hc]
      · simp [stripPrefixList, ha, hb]
    · simp [stripPrefixList, ha]

lemma ascEntryCands_ups {e : List Char} (he : goodEntry e) :
    ∀ (k : Nat) (rest : List Char),
      ascEntryCands e (upsList (k + 1) ++ (e ++ rest)) = [rest] := by
  intro k
  induction k with
  | zero =>
    intro rest
    show ascEntryCands e ('.' :: '.' :: '/' :: ([] ++ (e ++ rest))) = [rest]
    rw [ascEntryCands]
    rw [List.nil_append, ascEntryCands_eq_nil e _ (goodEntry_no_asc he rest),
      stripPrefixList_self_append]
    rfl
  | succ k ih =>
    intro rest
    show ascEntryCands e ('.' :: '.' :: '/' :: (upsList (k + 1) ++ (e ++ rest))) = [rest]
    rw [ascEntryCands, ih rest]
    have : upsList (k + 1) ++ (e ++ rest) = '.' :: '.' :: '/' :: (upsList k ++ (e ++ rest)) := by
      simp [upsList]
    rw [this, goodEntry_strip_asc_none he]
    rfl

lemma specClose_quote (post : List Char) : specClose ('"' :: post) = some ([], post) := rfl

lemma specClose_colon (t post : List Char) (h : '"' ∉ t) :
    specClose (':' :: (t ++ '"' :: post)) = some (':' :: t, post) := by
  have hall : ∀ x ∈ t, (x != '"') = true := by
    intro x hx
    simp
    intro hq
    exact h (hq ▸ hx)
  have hq : (('"' : Char) != '"') = false := by decide
  have := takeWhile_split (fun c => c != '"') t '"' post hall hq
  simp only [specClose, this.1, this.2]

lemma firstSome_some_mem {α β} {l : List α} {f : α → Option β} {b : β}
    (h : firstSome l f = some b) : ∃ a ∈ l, f a = some b := by
  induction l with
  | nil => simp [firstSome] at h
  | cons x xs ih =>
    unfold firstSome at h
    split at h
    · rename_i b2 heq
      exact ⟨x, by simp, by rw [heq, h]⟩
    · obtain ⟨a, ha, hfa⟩ := ih h
      exact ⟨a, by simp [ha], hfa⟩

lemma takeWhile_all {α} (p : α → Bool) :
    ∀ (l : List α), ∀ x ∈ l.takeWhile p, p x = true := by
  intro l
  induction l with
  | nil => simp
  | cons a as ih =>
    intro x hx
    by_cases ha : p a
    · rw [List.takeWhile_cons, if_pos ha] at hx
      rcases List.mem_cons.mp hx with rfl | hx
      · exact ha
      · exact ih x hx
    · rw [List.takeWhile_cons, if_neg ha] at hx
      exact absurd hx (List.not_mem_nil x)

lemma tryMatchAt_some_shape {e s sp rest : List Char}
    (h : tryMatchAt e s = some (sp, rest)) :
    ∃ w t, (∀ x ∈ w, isUniWs x = true) ∧
      s = impTok ++ (w ++ '"' :: ('.' :: '.' :: '/' :: t)) ∧
      ∃ r ∈ ascEntryCands e ('.' :: '.' :: '/' :: t),
        specClose r = some (sp, rest) := by
  unfold tryMatchAt at h
  split at h
  · exact absurd h (by simp)
  · rename_i s1 hsp
    split at h
    · exact absurd h (by simp)
    · split at h
      · rename_i s2 hdw
        obtain ⟨r, hr, hrc⟩ := firstSome_some_mem h
        have hshape : ∃ t, s2 = '.' :: '.' :: '/' :: t := by
          by_contra hno
          push_neg at hno
          rw [ascEntryCands_eq_nil e s2 hno] at hr
          exact absurd hr (List.not_mem_nil r)
        obtain ⟨t, rfl⟩ := hshape
        refine ⟨s1.takeWhile isUniWs, t, takeWhile_all isUniWs s1, ?_, r, hr, hrc⟩
        have hs1 : s1 = s1.takeWhile isUniWs ++ '"' :: '.' :: '.' :: '/' :: t := by
          conv_lhs => rw [← List.takeWhile_append_dropWhile (p := isUniWs) (l := s1)]
          rw [hdw]
        rw [stripPrefixList_some impTok s s1 hsp]
        conv_lhs => rw [hs1]
      · exact absurd h (by simp)

lemma ascEntryCands_length (e : List Char) :
    ∀ (fuel : Nat) (s : List Char), s.length ≤ fuel →
      ∀ r ∈ ascEntryCands e s, r.length ≤ s.length := by
  intro fuel
  induction fuel with
  | zero =>
    intro s hs r hr
    have hnil : s = [] := by cases s <;> simp_all
    subst hnil
    rw [ascEntryCands_eq_nil e [] (by intro t ht; simp at ht)] at hr
    exact absurd hr (List.not_mem_nil r)
  | succ n ih =>
    intro s hs r hr
    unfold ascEntryCands at hr
    split at hr
    · rename_i rest
      rw [List.mem_append] at hr
      rcases hr with hr | hr
      · have hlen : rest.length ≤ n := by simp at hs; omega
        have := ih rest hlen r hr
        simp
        omega
      · split at hr
        · rename_i r2 hstrip
          rcases List.mem_singleton.mp hr with rfl
          have he := stripPrefixList_some e rest r hstrip
          have : rest.length = e.length + r.length := by rw [he]; simp
          simp
          omega
        · exact absurd hr (List.not_mem_nil r)
    · exact absurd hr (List.not_mem_nil r)

lemma specClose_length {s sp rest : List Char} (h : specClose s = some (sp, rest)) :
    rest.length < s.length := by
  unfold specClose at h
  split at h
  · rename_i r
    split at h
    · rename_i rest2 hdw
      have hinj : rest2 = rest := by
        simpa using congrArg (fun o => (o.map Prod.snd)) h
      subst hinj
      have hle := length_dropWhile_le (fun c => c != '"') r
      rw [hdw] at hle
      simp at hle ⊢
      omega
    · exact absurd h (by simp)
  · rename_i rest2
    have hinj : rest2 = rest := by
      simpa using congrArg (fun o => (o.map Prod.snd)) h
    subst hinj
    simp
  · exact absurd h (by simp)

lemma tryMatchAt_rest_lt {e s sp rest : List Char}
    (h : tryMatchAt e s = some (sp, rest)) : rest.length < s.length := by
  obtain ⟨w, t, _, hs, r, hr, hrc⟩ := tryMatchAt_some_shape h
  have h1 := ascEntryCands_length e ('.' :: '.' :: '/' :: t).length
    ('.' :: '.' :: '/' :: t) le_rfl r hr
  have h2 := specClose_length hrc
  subst hs
  simp [impTok] at h1 ⊢
  omega

lemma replaceAllAux_fuel (n v e : List Char) :
    ∀ (fuel : Nat) (s : List Char), s.length ≤ fuel →
      replaceAllAux n v e fuel s = replaceAllL n v e s := by
  intro fuel
  induction fuel using Nat.strong_induction_on with
  | _ fuel ih =>
    intro s hs
    cases s with
    | nil => cases fuel <;> rfl
    | cons c cs =>
      cases fuel with
      | zero => simp at hs
      | succ f =>
        have hcs : cs.length ≤ f := by simp at hs; omega
        rw [replaceAllL]
        show replaceAllAux n v e (f + 1) (c :: cs) =
          replaceAllAux n v e (c :: cs).length (c :: cs)
        rw [List.length_cons]
        cases hm : tryMatchAt e (c :: cs) with
        | some pr =>
          obtain ⟨sp, rest⟩ := pr
          have hrl : rest.length ≤ cs.length := by
            have := tryMatchAt_rest_lt hm
            simp at this
            omega
          simp only [replaceAllAux, hm]
          rw [ih f (by omega) rest (le_trans hrl hcs),
            ih cs.length (by omega) rest hrl]
        | none =>
          simp only [replaceAllAux, hm]
          rw [ih f (by omega) cs hcs, ih cs.length (by omega) cs le_rfl]

lemma tryMatchAt_nil (e : List Char) : tryMatchAt e [] = none := by
  simp [tryMatchAt, impTok, stripPrefixList]

lemma replaceAllL_match_step (n v : List Char) {e s sp rest : List Char}
    (h : tryMatchAt e s = some (sp, rest)) :
    replaceAllL n v e s = replacementText n v sp ++ replaceAllL n v e rest := by
  cases s with
  | nil => rw [tryMatchAt_nil] at h; exact absurd h (by simp)
  | cons c cs =>
    have hrl : rest.length ≤ cs.length := by
      have := tryMatchAt_rest_lt h
      simp at this
      omega
    show replaceAllAux n v e (c :: cs).length (c :: cs) = _
    rw [List.length_cons]
    simp only [replaceAllAux, h]
    rw [replaceAllAux_fuel n v e cs.length rest hrl]

lemma replaceAllAux_id_of_no_match (n v e : List Char) :
    ∀ (s : List Char) (fuel : Nat), hasMatchB e s = false →
      replaceAllAux n v e fuel s = s := by
  intro s
  induction s with
  | nil => intro fuel _; cases fuel <;> rfl
  | cons c cs ih =>
    intro fuel h
    rw [hasMatchB, Bool.or_eq_false_iff] at h
    obtain ⟨h1, h2⟩ := h
    cases fuel with
    | zero => rfl
    | succ f =>
      cases hm : tryMatchAt e (c :: cs) with
      | some pr => rw [hm] at h1; simp at h1
      | none => simp only [replaceAllAux, hm]; rw [ih f h2]

lemma replaceAllL_id_of_no_match (n v e : List Char) {s : List Char}
    (h : hasMatchB e s = false) : replaceAllL n v e s = s :=
  replaceAllAux_id_of_no_match n v e s s.length h

lemma tryMatchAt_append_impTok (e s1 : List Char) :
    tryMatchAt e (impTok ++ s1) =
      (if (s1.takeWhile isUniWs).isEmpty = true then none
       else
         match s1.dropWhile isUniWs with
         | '"' :: s2 => firstSome (ascEntryCands e s2) specClose
         | _ => none) := by
  unfold tryMatchAt
  rw [stripPrefixList_self_append]

lemma tryMatchAt_stmt {e : List Char} (he : goodEntry e)
    (w sp post : List Char) (k : Nat)
    (hw : w ≠ []) (hwall : ∀ x ∈ w, isUniWs x = true)
    (hsp : sp = [] ∨ ∃ t, sp = ':' :: t ∧ '"' ∉ t) :
    tryMatchAt e (impTok ++ (w ++ '"' :: (upsList (k + 1) ++ (e ++ (sp ++ '"' :: post))))) =
      some (sp, post) := by
  have hq : isUniWs '"' = false := by decide
  have hsplit := takeWhile_split isUniWs w '"'
    (upsList (k + 1) ++ (e ++ (sp ++ '"' :: post))) hwall hq
  have hne : w.isEmpty = false := by
    cases w
    · exact absurd rfl hw
    · rfl
  rw [tryMatchAt_append_impTok]
  simp only [hsplit.1, hsplit.2, hne, Bool.false_eq_true, if_false]
  show firstSome
      (ascEntryCands e (upsList (k + 1) ++ (e ++ (sp ++ '"' :: post)))) specClose =
    some (sp, post)
  rw [ascEntryCands_ups he k (sp ++ '"' :: post)]
  rcases hsp with rfl | ⟨t, rfl, ht⟩
  · simp only [List.nil_append, firstSome, specClose_quote]
  · rw [List.cons_append]
    simp only [firstSome, specClose_colon t post ht]

lemma replaceAllL_stmt (n v : List Char) {e : List Char} (he : goodEntry e)
    (w sp post : List Char) (k : Nat)
    (hw : w ≠ []) (hwall : ∀ x ∈ w, isUniWs x = true)
    (hsp : sp = [] ∨ ∃ t, sp = ':' :: t ∧ '"' ∉ t) :
    replaceAllL n v e (impTok ++ (w ++ '"' :: (upsList (k + 1) ++ (e ++ (sp ++ '"' :: post))))) =
      replacementText n v sp ++ replaceAllL n v e post :=
  replaceAllL_match_step n v (tryMatchAt_stmt he w sp post k hw hwall hsp)

/-! ## Lemmas about the quote-dot shape -/

lemma adjQD_cons_of (c : Char) {cs : List Char} (h : adjQD cs = true) :
    adjQD (c :: cs) = true := by
  cases cs with
  | nil => simp [adjQD] at h
  | cons d r =>
    rw [adjQD, h]
    simp

lemma adjQD_append_qd (x y : List Char) : adjQD (x ++ '"' :: '.' :: y) = true := by
  induction x with
  | nil => simp [adjQD]
  | cons c x ih =>
    rw [List.cons_append]
    exact adjQD_cons_of c ih

lemma hasMatchB_adjQD {e : List Char} : ∀ {s : List Char},
    hasMatchB e s = true → adjQD s = true := by
  intro s
  induction s with
  | nil => intro h; simp [hasMatchB] at h
  | cons c cs ih =>
    intro h
    rw [hasMatchB, Bool.or_eq_true] at h
    rcases h with h | h
    · rw [Option.isSome_iff_exists] at h
      obtain ⟨⟨sp, rest⟩, hm⟩ := h
      obtain ⟨w, t, _, hs, _⟩ := tryMatchAt_some_shape hm
      rw [hs]
      have hre : impTok ++ (w ++ '"' :: '.' :: ('.' :: '/' :: t)) =
          (impTok ++ w) ++ '"' :: '.' :: ('.' :: '/' :: t) := by simp
      rw [hre]
      exact adjQD_append_qd _ _
    · exact adjQD_cons_of c (ih h)

lemma adjQD_of_no_quote : ∀ (l : List Char), '"' ∉ l → adjQD l = false := by
  intro l
  induction l with
  | nil => intro _; rfl
  | cons a r ih =>
    intro h
    cases r with
    | nil => rfl
    | cons b r2 =>
      rw [adjQD]
      have ha : ¬(a = '"') := fun he => h (by simp [he])
      have hr : '"' ∉ b :: r2 := fun hm => h (List.mem_cons_of_mem a hm)
      have hf : (a == '"') = false := by simp [ha]
      rw [hf, ih hr]
      rfl

lemma adjQD_append_false : ∀ (a b : List Char), adjQD a = false → adjQD b = false →
    (∀ x y, a.getLast? = some x → b.head? = some y → ¬(x = '"' ∧ y = '.')) →
    adjQD (a ++ b) = false := by
  intro a
  induction a with
  | nil =>
    intro b _ hb _
    simpa using hb
  | cons c as ih =>
    intro b ha hb hbd
    cases as with
    | nil =>
      cases b with
      | nil => rfl
      | cons d bs =>
        rw [List.singleton_append, adjQD]
        have h1 : ¬(c = '"' ∧ d = '.') := hbd c d rfl rfl
        have h2 : (c == '"' && d == '.') = false := by
          by_cases hc : c = '"'
          · by_cases hd : d = '.'
            · exact absurd ⟨hc, hd⟩ h1
            · simp [hd]
          · simp [hc]
        rw [h2]
        simpa using hb
    | cons c2 as2 =>
      simp only [List.cons_append]
      rw [adjQD]
      rw [adjQD] at ha
      rw [Bool.or_eq_false_iff] at ha
      have hbd2 : ∀ x y, (c2 :: as2).getLast? = some x → b.head? = some y →
          ¬(x = '"' ∧ y = '.') := by
        intro x y hx hy
        exact hbd x y (by rw [List.getLast?_cons_cons]; exact hx) hy
      rw [ha.1]
      have := ih b ha.2 hb hbd2
      rw [List.cons_append] at this
      rw [this]
      rfl

lemma adjQD_replacement {n v sp : List Char} (hn : '"' ∉ n) (hv : '"' ∉ v)
    (hsp : '"' ∉ sp) : adjQD (replacementText n v sp) = false := by
  have hmid : '"' ∉ (n ++ ':' :: (v ++ sp)) := by
    intro hm
    rcases List.mem_append.mp hm with h | h
    · exact hn h
    · rcases List.mem_cons.mp h with h | h
      · exact absurd h (by decide)
      · rcases List.mem_append.mp h with h | h
        · exact hv h
        · exact hsp h
  have h1 : adjQD (n ++ ':' :: (v ++ sp)) = false := adjQD_of_no_quote _ hmid
  have h2 : adjQD ((n ++ ':' :: (v ++ sp)) ++ ['"']) = false := by
    apply adjQD_append_false _ _ h1 (by decide)
    intro x y _ hy
    simp at hy
    subst hy
    rintro ⟨_, hdot⟩
    exact absurd hdot (by decide)
  have h3 : replacementText n v sp =
      ("#import \"@preview/").data ++ ((n ++ ':' :: (v ++ sp)) ++ ['"']) := by
    simp [replacementText]
  rw [h3]
  apply adjQD_append_false _ _ (by decide) h2
  intro x y hx _
  have hx2 : x = '/' := by
    rw [show (("#import \"@preview/").data).getLast? = some '/' from rfl] at hx
    exact (Option.some_inj.mp hx).symm
  subst hx2
  rintro ⟨hq, _⟩
  exact absurd hq (by decide)

lemma hasMatchB_replacement_false {e n v sp : List Char}
    (hn : '"' ∉ n) (hv : '"' ∉ v) (hsp : '"' ∉ sp) :
    hasMatchB e (replacementText n v sp) = false := by
  by_contra h
  rw [Bool.not_eq_false] at h
  have h2 := hasMatchB_adjQD h
  rw [adjQD_replacement hn hv hsp] at h2
  exact absurd h2 (by decide)

/-! ## C2: the import rewrite -/

/-- C2: an import statement whose quoted path is one or more `../`
segments immediately followed by exactly the entrypoint file name —
optionally with a specifier clause `: ...` — is rewritten to import
`@preview/NAME:VERSION` with the specifier kept verbatim, and the scan
continues on the remaining content; concretely, with entrypoint
`main.typ`, name `mypkg`, version `1.0.0`, the line
`hash-import "../main.typ": foo` becomes
`hash-import "@preview/mypkg:1.0.0": foo`, while a different file name
(`../../other.typ`) and a path with a descending segment
(`../lib/main.typ`) are left byte-for-byte unchanged. -/
theorem c2_import_rewrite :
    (∀ (n v e w sp post : List Char) (k : Nat), goodEntry e →
        w ≠ [] → (∀ x ∈ w, isUniWs x = true) →
        (sp = [] ∨ ∃ t, sp = ':' :: t ∧ '"' ∉ t) →
        replaceAllL n v e
            (impTok ++ (w ++ '"' :: (upsList (k + 1) ++ (e ++ (sp ++ '"' :: post))))) =
          replacementText n v sp ++ replaceAllL n v e post)
    ∧ rewriteTyp "mypkg" "1.0.0" "main.typ" "#import \"../main.typ\": foo" =
        "#import \"@preview/mypkg:1.0.0\": foo"
    ∧ rewriteTyp "mypkg" "1.0.0" "main.typ" "#import \"../../other.typ\"" =
        "#import \"../../other.typ\""
    ∧ rewriteTyp "mypkg" "1.0.0" "main.typ" "#import \"../lib/main.typ\"" =
        "#import \"../lib/main.typ\"" := by
  refine ⟨fun n v e w sp post k he hw hwall hsp =>
    replaceAllL_stmt n v he w sp post k hw hwall hsp, by decide, by decide, by decide⟩

/-- Witness for C2: the general statement instantiated at the spec's
example — one `../` segment, entrypoint `main.typ`, name `mypkg`,
version `1.0.0`, empty in-quote specifier, trailing `: foo` kept by the
continuing scan. -/
theorem c2_import_rewrite_witness :
    replaceAllL ("mypkg").data ("1.0.0").data ("main.typ").data
        (impTok ++ ([' '] ++ '"' ::
          (upsList 1 ++ (("main.typ").data ++ ([] ++ '"' :: (": foo").data))))) =
      replacementText ("mypkg").data ("1.0.0").data [] ++
        replaceAllL ("mypkg").data ("1.0.0").data ("main.typ").data (": foo").data :=
  c2_import_rewrite.1 ("mypkg").data ("1.0.0").data ("main.typ").data
    [' '] [] (": foo").data 0 (by constructor <;> decide)
    (by decide) (by decide) (Or.inl rfl)

/-! ## C10: untouched content -/

/-- C10: an included `.typ` file (extension `typ`, so in particular not
a `typst.toml`) whose content has no match of the ascending self-import
pattern is written byte-for-byte unchanged. -/
theorem c10_frame_rewrite :
    ∀ (name version entryName : String) (comps : List String) (f : String)
      (content : String),
      comps.getLast? = some f →
      rustExtension f.data = some ('t' :: 'y' :: 'p' :: []) →
      hasMatchB entryName.data content.data = false →
      transformContent name version entryName comps content = content := by
  intro n v e comps f c hlast hext hnm
  have hf : f ≠ "typst.toml" := by
    intro hfe
    subst hfe
    rw [show rustExtension ("typst.toml").data = some ('t' :: 'o' :: 'm' :: 'l' :: []) from rfl]
      at hext
    exact absurd hext (by decide)
  have hcond : ¬(comps.getLast? = some "typst.toml") := by
    rw [hlast]
    intro hc
    exact hf (by injection hc)
  rw [transformContent, if_neg hcond]
  simp only [hlast, hext]
  rw [if_pos trivial]
  show (⟨replaceAllL n.data v.data e.data c.data⟩ : String) = c
  rw [replaceAllL_id_of_no_match _ _ _ hnm]

/-- Witness for C10: a `.typ` file whose content contains no ascending
self-import is copied unchanged. -/
theorem c10_frame_rewrite_witness :
    transformContent "mypkg" "1.0.0" "main.typ" ["sub", "notes.typ"]
        "= Heading\nsome text\n#import \"other.typ\"" =
      "= Heading\nsome text\n#import \"other.typ\"" :=
  c10_frame_rewrite "mypkg" "1.0.0" "main.typ" ["sub", "notes.typ"] "notes.typ"
    "= Heading\nsome text\n#import \"other.typ\"" rfl rfl (by decide)

/-! ## C3 (amended): idempotence -/

/-- C3 amended: a second rewrite reproduces the output byte-for-byte
whenever the once-rewritten content no longer contains a match of the
ascending self-import pattern — in particular a single rewritten import
statement (its `@preview/...` path no longer matches) is a fixed point,
for any name, version and specifier free of quote characters.  Full
idempotence on arbitrary content fails (see the counterexample): a
rewritten specifier clause containing `hash-import` can splice with a
following quote into a fresh match. -/
theorem c3_idempotence_amended :
    (∀ (n v e c : List Char), hasMatchB e (replaceAllL n v e c) = false →
        replaceAllL n v e (replaceAllL n v e c) = replaceAllL n v e c)
    ∧ (∀ (n v e w sp : List Char) (k : Nat), goodEntry e →
        '"' ∉ n → '"' ∉ v → w ≠ [] → (∀ x ∈ w, isUniWs x = true) →
        (sp = [] ∨ ∃ t, sp = ':' :: t ∧ '"' ∉ t) →
        replaceAllL n v e (replaceAllL n v e
            (impTok ++ (w ++ '"' :: (upsList (k + 1) ++ (e ++ (sp ++ '"' :: [])))))) =
          replaceAllL n v e
            (impTok ++ (w ++ '"' :: (upsList (k + 1) ++ (e ++ (sp ++ '"' :: [])))))) := by
  constructor
  · intro n v e c h
    exact replaceAllL_id_of_no_match n v e h
  · intro n v e w sp k he hn hv hw hwall hsp
    have hspq : '"' ∉ sp := by
      rcases hsp with rfl | ⟨t, rfl, ht⟩
      · simp
      · intro hm
        rcases List.mem_cons.mp hm with h | h
        · exact absurd h (by decide)
        · exact ht h
    have hstep := replaceAllL_stmt n v he w sp ([] : List Char) k hw hwall hsp
    rw [hstep]
    have hnil : replaceAllL n v e [] = [] := rfl
    rw [hnil, List.append_nil]
    exact replaceAllL_id_of_no_match n v e (hasMatchB_replacement_false hn hv hspq)

/-- Witness for C3 (amended): the single statement
`hash-import "../main.typ"` with name `mypkg`, version `1.0.0` is a
fixed point of a second rewrite. -/
theorem c3_idempotence_amended_witness :
    replaceAllL ("mypkg").data ("1.0.0").data ("main.typ").data
        (replaceAllL ("mypkg").data ("1.0.0").data ("main.typ").data
          (impTok ++ ([' '] ++ '"' ::
            (upsList 1 ++ (("main.typ").data ++ ([] ++ '"' :: [])))))) =
      replaceAllL ("mypkg").data ("1.0.0").data ("main.typ").data
        (impTok ++ ([' '] ++ '"' ::
          (upsList 1 ++ (("main.typ").data ++ ([] ++ '"' :: []))))) :=
  c3_idempotence_amended.2 ("mypkg").data ("1.0.0").data ("main.typ").data
    [' '] [] 0 (by constructor <;> decide) (by decide) (by decide)
    (by decide) (by decide) (Or.inl rfl)

/-! ## C1 (amended): glob exclusion across separators -/

lemma mapM_option_mem {α β} :
    ∀ (l : List α) (f : α → Option β) (gs : List β),
      l.mapM f = some gs → ∀ a ∈ l, ∃ b, f a = some b ∧ b ∈ gs := by
  intro l
  induction l with
  | nil =>
    intro f gs _ a ha
    exact absurd ha (List.not_mem_nil a)
  | cons x xs ih =>
    intro f gs h a ha
    rw [List.mapM_cons] at h
    cases hfx : f x with
    | none => rw [hfx] at h; simp at h
    | some b0 =>
      rw [hfx] at h
      cases hxs : xs.mapM f with
      | none => rw [hxs] at h; simp at h
      | some bs0 =>
        rw [hxs] at h
        simp at h
        rcases List.mem_cons.mp ha with rfl | ha2
        · exact ⟨b0, hfx, by simp [← h]⟩
        · obtain ⟨b, hb, hbm⟩ := ih f bs0 hxs a ha2
          exact ⟨b, hb, by simp [← h, hbm]⟩

/-- C1 amended: in any exclusion set containing `*.png` (whose patterns
all compile), BOTH `image.png` and `sub/image.png` are excluded: with
globset's default settings a single `*` does match across `/`. -/
theorem c1_amended :
    ∀ (S : List String) (isDir : String → Bool) (gs : List (List (List GlobToken))),
      "*.png" ∈ S →
      S.mapM (fun p => parseGlobFull p.data) = some gs →
      isExcluded? S isDir "image.png" = some true ∧
        isExcluded? S isDir "sub/image.png" = some true := by
  intro S isDir gs hmem hparse
  obtain ⟨g, hg, hgm⟩ := mapM_option_mem S _ gs hparse _ hmem
  rw [show parseGlobFull ("*.png").data =
      some [[GlobToken.many, GlobToken.lit '.', GlobToken.lit 'p', GlobToken.lit 'n', GlobToken.lit 'g']] from rfl] at hg
  have hgeq := Option.some_inj.mp hg
  subst hgeq
  have h1 : S.any (fun _ => false) = false := by simp
  constructor
  · unfold isExcluded?
    rw [hparse]
    show some ((gs.any fun g2 => globIsMatch g2 ("image.png").data) || _) = some true
    rw [List.any_eq_true.mpr ⟨_, hgm, by decide⟩, Bool.true_or]
  · unfold isExcluded?
    rw [hparse]
    show some ((gs.any fun g2 => globIsMatch g2 ("sub/image.png").data) || _) = some true
    rw [List.any_eq_true.mpr ⟨_, hgm, by decide⟩, Bool.true_or]

/-- Witness for C1 (amended) at the singleton set. -/
theorem c1_amended_witness :
    isExcluded? ["*.png"] (fun _ => false) "image.png" = some true ∧
      isExcluded? ["*.png"] (fun _ => false) "sub/image.png" = some true :=
  c1_amended ["*.png"] (fun _ => false)
    [[[GlobToken.many, GlobToken.lit '.', GlobToken.lit 'p', GlobToken.lit 'n', GlobToken.lit 'g']]]
    (by simp) (by decide)

/-! ## C5 (amended): literal directory patterns -/

lemma splitFirstBrace_plain : ∀ (s : List Char),
    (∀ c ∈ s, plainGlobChar c = true) → splitFirstBrace s = some none := by
  intro s
  induction s with
  | nil => intro _; rfl
  | cons c r ih =>
    intro h
    have hc := h c (by simp)
    have hr := fun x hx => h x (List.mem_cons_of_mem c hx)
    have hcb : ¬(c = '\\') := by
      intro he
      subst he
      simp [plainGlobChar] at hc
    have hcl : ¬(c = '\x7b') := by
      intro he
      subst he
      simp [plainGlobChar] at hc
    unfold splitFirstBrace
    split
    · rfl
    · rename_i heq
      injection heq with h1 _
      exact absurd h1 hcb
    · rename_i c2 r2 heq
      injection heq with h1 _
      exact absurd h1 hcb
    · rename_i r2 heq
      injection heq with h1 _
      exact absurd h1 hcl
    · rename_i c2 r2 _ _ _ heq
      injection heq with h1 h2
      subst h1
      subst h2
      rw [ih hr]
      rfl

lemma parseSimpleAux_plain : ∀ (fuel : Nat) (s : List Char), s.length < fuel →
    (∀ c ∈ s, plainGlobChar c = true) →
    parseSimpleAux fuel s = some (s.map GlobToken.lit) := by
  intro fuel
  induction fuel with
  | zero =>
    intro s h _
    omega
  | succ f ih =>
    intro s hlen h
    cases s with
    | nil => rfl
    | cons c r =>
      have hc := h c (by simp)
      have hr := fun x hx => h x (List.mem_cons_of_mem c hx)
      have h1 : ¬(c = '\\') := by intro he; subst he; simp [plainGlobChar] at hc
      have h2 : ¬(c = '*') := by intro he; subst he; simp [plainGlobChar] at hc
      have h3 : ¬(c = '?') := by intro he; subst he; simp [plainGlobChar] at hc
      have h4 : ¬(c = '[') := by intro he; subst he; simp [plainGlobChar] at hc
      have hrec : parseSimpleAux f r = some (r.map GlobToken.lit) :=
        ih r (by simp at hlen; omega) hr
      unfold parseSimpleAux
      split
      · omega
      · rename_i heq
        injection heq
      · rename_i heq1 heq2
        injection heq2 with ha _
        exact absurd ha h1
      · rename_i c2 r2 _ heq2
        injection heq2 with ha _
        exact absurd ha h1
      · rename_i r2 _ heq2
        injection heq2 with ha _
        exact absurd ha h2
      · rename_i r2 _ heq2
        injection heq2 with ha _
        exact absurd ha h2
      · rename_i r2 _ heq2
        injection heq2 with ha _
        exact absurd ha h3
      · rename_i r2 _ heq2
        injection heq2 with ha _
        exact absurd ha h4
      · rename_i r2 _ heq2
        injection heq2 with ha _
        exact absurd ha h4
      · rename_i f2 c2 r2 _ _ _ _ _ _ heq1 heq2
        injection heq1 with hf
        injection heq2 with ha hb
        subst hf
        subst ha
        subst hb
        rw [hrec]
        rfl

lemma parseGlobFull_plain (s : List Char) (h : ∀ c ∈ s, plainGlobChar c = true) :
    parseGlobFull s = some [s.map GlobToken.lit] := by
  unfold parseGlobFull
  unfold expandBracesAux
  rw [splitFirstBrace_plain s h]
  show [s].mapM parseSimple = some [s.map GlobToken.lit]
  rw [List.mapM_cons,
    show parseSimple s = some (s.map GlobToken.lit) from
      parseSimpleAux_plain (s.length + 1) s (by omega) h]
  rfl

lemma globMatchAux_lit : ∀ (fuel : Nat) (d s : List Char), d.length + s.length < fuel →
    (globMatchAux fuel (d.map GlobToken.lit) s = true ↔ s = d) := by
  intro fuel
  induction fuel with
  | zero =>
    intro d s h
    omega
  | succ f ih =>
    intro d s hlen
    cases d with
    | nil =>
      cases s with
      | nil => simp [globMatchAux]
      | cons x xs => simp [globMatchAux]
    | cons c dr =>
      cases s with
      | nil => simp [globMatchAux]
      | cons x xs =>
        rw [List.map_cons]
        show ((c == x) && globMatchAux f (dr.map GlobToken.lit) xs) = true ↔ x :: xs = c :: dr
        rw [Bool.and_eq_true]
        constructor
        · rintro ⟨hcx, hrest⟩
          have hx := (ih dr xs (by simp at hlen; omega)).mp hrest
          rw [beq_iff_eq.mp hcx, hx]
        · intro heq
          injection heq with heq1 heq2
          exact ⟨by simp [heq1], (ih dr xs (by simp at hlen; omega)).mpr heq2⟩

lemma globMatch_lit (d s : List Char) :
    globMatch (d.map GlobToken.lit) s = true ↔ s = d := by
  rw [globMatch, List.length_map]
  exact globMatchAux_lit (d.length + s.length + 1) d s (by omega)

lemma string_eq_iff_data (a b : String) : a = b ↔ a.data = b.data := by
  constructor
  · intro h; rw [h]
  · intro h
    cases a
    cases b
    rw [show ∀ x y : List Char, x = y → String.mk x = String.mk y from fun x y hxy => hxy ▸ rfl]
    exact h

lemma dropTrailingSlashes_id {d : String} (h : d.data.getLast? ≠ some '/') :
    dropTrailingSlashes d = d := by
  unfold dropTrailingSlashes
  cases hd : d.data.reverse with
  | nil =>
    have hnil : d.data = [] := by simpa using congrArg List.reverse hd
    rw [List.dropWhile_nil]
    rw [string_eq_iff_data]
    simp [hnil]
  | cons c r =>
    have hc : ¬(c == '/') = true := by
      intro he
      apply h
      rw [← List.head?_reverse, hd]
      rw [beq_iff_eq.mp he]
      rfl
    rw [List.dropWhile_cons, if_neg hc]
    rw [string_eq_iff_data]
    show (c :: r).reverse = d.data
    rw [← hd, List.reverse_reverse]

lemma directoryPatterns_single {d : String} (isDir : String → Bool)
    (hmeta : hasGlobMeta d = false) (hdir : isDir d = true)
    (hslash : d.data.getLast? ≠ some '/') :
    directoryPatterns [d] isDir = [d] := by
  unfold directoryPatterns
  rw [List.filter_cons, if_pos (by simp [hmeta])]
  simp [hdir, dropTrailingSlashes_id hslash]

/-- C5 amended: a literal pattern — one containing none of the code's
metacharacters `* ? [ ]` AND no brace or backslash (which globset also
treats specially) — that names an existing subdirectory and has no
trailing separator excludes exactly the path equal to it and the paths
under it; in particular `foo` does not exclude `foobar`. -/
theorem c5_amended :
    ∀ (d P : String) (isDir : String → Bool),
      (∀ c ∈ d.data, plainGlobChar c = true) →
      isDir d = true →
      d.data.getLast? ≠ some '/' →
      (isExcluded? [d] isDir P = some true ↔
        (P = d ∨ startsWithStr (d ++ "/") P = true)) := by
  intro d P isDir hplain hdir hslash
  have hmeta : hasGlobMeta d = false := by
    unfold hasGlobMeta
    rw [List.any_eq_false]
    intro x hx
    have hp := hplain x hx
    simp [plainGlobChar, not_or] at hp
    simp [hp]
  have hparse := parseGlobFull_plain d.data hplain
  have hmapm : [d].mapM (fun p => parseGlobFull p.data) =
      some [[d.data.map GlobToken.lit]] := by
    rw [List.mapM_cons, hparse]
    rfl
  unfold isExcluded?
  rw [hmapm, directoryPatterns_single isDir hmeta hdir hslash]
  show some (([[d.data.map GlobToken.lit]].any fun g => globIsMatch g P.data) ||
      ([d].any fun d2 => P == d2 || startsWithStr (d2 ++ "/") P)) = some true ↔ _
  simp only [List.any_cons, List.any_nil, Bool.or_false, globIsMatch,
    Option.some.injEq]
  rw [Bool.or_eq_true, Bool.or_eq_true]
  rw [globMatch_lit d.data P.data, beq_iff_eq]
  rw [← string_eq_iff_data P d]
  constructor
  · rintro (h | h | h)
    · exact Or.inl h
    · exact Or.inl h
    · exact Or.inr h
  · rintro (h | h)
    · exact Or.inl h
    · exact Or.inr (Or.inr h)

/-- Witness for C5 (amended): the literal pattern `foo`, naming an
existing directory, does not exclude the sibling `foobar`. -/
theorem c5_amended_witness :
    isExcluded? ["foo"] (fun s => s == "foo") "foobar" = some true ↔
      ("foobar" = "foo" ∨ startsWithStr ("foo" ++ "/") "foobar" = true) :=
  c5_amended "foo" "foobar" (fun s => s == "foo") (by decide) (by decide) (by decide)

end TypstBuild
